import Mathlib

/-!
Verification of the markdown ingestion/listing module (`lib/posts`:
`getPostBySlug`, `getPosts`, `getPostMetadata`) and of the client-side
search filter (`PostsWithSearch`) of a markdown blog application.

The filesystem is modelled as a directory value (`Dir`): either missing or a
listing of (file name, file contents) pairs in enumeration order.  Throwing
JS functions are modelled with `Except JsError`; `getPostBySlug` wraps its
body in try/catch, which is modelled by collapsing the `Except` into an
`Option`.  JS objects (front-matter data, post metadata) are modelled as
ordered key-value association lists with first-match lookup and
spread-update semantics.
-/

/-- A post metadata object (a parsed front-matter mapping, possibly with the
injected `slug` field): ordered key-value pairs, as in a JS object. -/
abbrev PostMetadata := List (String × String)

/-- A loaded post, as returned by `getPostBySlug`: metadata plus markdown body. -/
structure Post where
  metadata : PostMetadata
  content : String
deriving DecidableEq, Repr

/-- The content store: a missing directory, or a directory whose listing is a
list of (file name, file contents) pairs in `readdir` enumeration order. -/
inductive Dir where
  | missing : Dir
  | present (files : List (String × String)) : Dir
deriving DecidableEq, Repr

/-- Errors thrown by filesystem reads and by the front-matter parser. -/
inductive JsError where
  | enoent : JsError
  | parseError : JsError
deriving DecidableEq, Repr

/-- First-match lookup of a key in a key-value list (JS property access). -/
def lookupKV (k : String) : List (String × String) → Option String
  | [] => none
  | (k₀, v) :: rest => if k₀ = k then some v else lookupKV k rest

/-- JS object spread update `\x7b...obj, k: v\x7d`: an existing key keeps its
position but its value is overwritten; a new key is appended at the end. -/
def setKey (kvs : PostMetadata) (k v : String) : PostMetadata :=
  if (lookupKV k kvs).isSome then
    kvs.map (fun p => if p.1 = k then (k, v) else p)
  else kvs ++ [(k, v)]

/-- Split a character list on a separator character; always returns at least
one (possibly empty) group. -/
def splitOnChar (sep : Char) : List Char → List (List Char)
  | [] => [[]]
  | c :: cs =>
    match splitOnChar sep cs with
    | [] => if c = sep then [[], []] else [[c]]
    | g :: gs => if c = sep then [] :: g :: gs else (c :: g) :: gs

/-- The lines of a string (split on the newline character). -/
def linesOf (s : String) : List String := (splitOnChar '\n' s.toList).map String.mk

/-- Rejoin lines with newline separators. -/
def joinLines : List String → String
  | [] => ""
  | [l] => l
  | l₀ :: l₁ :: rest => l₀ ++ "\n" ++ joinLines (l₁ :: rest)

/-- Horizontal whitespace recognised by the header-line trimmer. -/
def isWsChar (c : Char) : Bool := c = ' ' || c = '\t' || c = '\r'

/-- Trim leading and trailing whitespace from a string. -/
def trimStr (s : String) : String :=
  String.mk (((s.toList.dropWhile isWsChar).reverse.dropWhile isWsChar).reverse)

/-- JS `String.prototype.endsWith`. -/
def strEndsWith (s suffix : String) : Bool := suffix.toList.isSuffixOf s.toList

/-- Split a character list at the first occurrence of a separator character;
`none` when the separator does not occur. -/
def splitAtChar (sep : Char) : List Char → Option (List Char × List Char)
  | [] => none
  | c :: cs =>
    if c = sep then some ([], cs)
    else
      match splitAtChar sep cs with
      | none => none
      | some (k, v) => some (c :: k, v)

/-- Modelled from the spec: one line of the header block is a `key: value`
pair, split at the first colon with both sides trimmed; a header line without
a colon is malformed. -/
def splitKV (line : String) : Option (String × String) :=
  match splitAtChar ':' line.toList with
  | none => none
  | some (k, v) => some (trimStr (String.mk k), trimStr (String.mk v))

/-- Modelled from the spec: parse the header block's lines into a key-value
mapping.  Blank lines are skipped; a line without a colon and a duplicated
mapping key are malformed header syntax (a ParseError). -/
def parseHeader : List String → PostMetadata → Option PostMetadata
  | [], acc => some acc
  | line :: rest, acc =>
    if trimStr line = "" then parseHeader rest acc
    else
      match splitKV line with
      | none => none
      | some (k, v) =>
        if (lookupKV k acc).isSome then none
        else parseHeader rest (acc ++ [(k, v)])

/-- Find the closing `---` marker line: returns the lines before it and the
lines after it, or `none` when no closing marker exists. -/
def splitAtMarker : List String → Option (List String × List String)
  | [] => none
  | line :: rest =>
    if line = "---" then some ([], rest)
    else
      match splitAtMarker rest with
      | none => none
      | some (header, body) => some (line :: header, body)

/-- Modelled from the spec: the front-matter parser (the external gray-matter
library, which is not part of src).  A file beginning with a `---` marker
line has its header block (up to the closing `---` line) parsed as a
key-value mapping and the remaining lines as body; malformed header syntax or
a missing closing marker throws a ParseError.  A file that does not begin
with the marker is returned whole as body with an empty mapping. -/
def matter (contents : String) : Except JsError (PostMetadata × String) :=
  match linesOf contents with
  | [] => .ok ([], contents)
  | first :: rest =>
    if first = "---" then
      match splitAtMarker rest with
      | none => .error .parseError
      | some (headerLines, bodyLines) =>
        match parseHeader headerLines [] with
        | none => .error .parseError
        | some data => .ok (data, joinLines bodyLines)
    else .ok ([], contents)

/-- `fs.readdirSync`: throws ENOENT on a missing directory, otherwise lists
the file names in enumeration order. -/
def readdir : Dir → Except JsError (List String)
  | .missing => .error .enoent
  | .present files => .ok (files.map (fun p => p.1))

/-- `fs.readFileSync`: throws ENOENT when the directory is missing or the
file is absent from it. -/
def readFileSync (store : Dir) (name : String) : Except JsError String :=
  match store with
  | .missing => .error .enoent
  | .present files =>
    match lookupKV name files with
    | some contents => .ok contents
    | none => .error .enoent

/-- Parse a nonempty all-digit character list into a number. -/
def parseNatAux : List Char → Nat → Option Nat
  | [], acc => some acc
  | c :: cs, acc =>
    if '0' ≤ c ∧ c ≤ '9' then parseNatAux cs (acc * 10 + (c.toNat - '0'.toNat))
    else none

/-- Parse a nonempty all-digit string into a number. -/
def parseNatStr (s : String) : Option Nat :=
  if s.toList.isEmpty then none else parseNatAux s.toList 0

/-- Modelled from the spec: timestamp parsing of `publishedAt` (the JS `Date`
built-in, external to the repository).  An ISO-style `YYYY-MM-DD` date maps
to a number monotone in the date (a stand-in for epoch milliseconds); a
missing or unparseable date yields `none`. -/
def dateTimestamp (s : String) : Option Nat :=
  match (splitOnChar '-' s.toList).map String.mk with
  | [y, m, d] =>
    match parseNatStr y, parseNatStr m, parseNatStr d with
    | some yn, some mn, some dn =>
      if 1 ≤ mn ∧ mn ≤ 12 ∧ 1 ≤ dn ∧ dn ≤ 31 then some (yn * 10000 + mn * 100 + dn)
      else none
    | _, _, _ => none
  | _ => none

/-- The sort key of the comparator in `getPosts`:
`new Date(md.publishedAt ?? "").getTime() || 0` — a missing `publishedAt`
reads as the empty string, and an unparseable date yields key 0. -/
def sortKey (md : PostMetadata) : Nat :=
  (dateTimestamp ((lookupKV "publishedAt" md).getD "")).getD 0

/-- The body of `getPostBySlug` before its try/catch: build the path from the
slug, read the file, parse it, inject the slug into the metadata. -/
def getPostBySlugBody (rootDir : Dir) (slug : String) : Except JsError Post :=
  match readFileSync rootDir (slug ++ ".md") with
  | .error e => .error e
  | .ok fileContents =>
    match matter fileContents with
    | .error e => .error e
    | .ok (data, content) => .ok ⟨setKey data "slug" slug, content⟩

/-- `getPostBySlug`: the body wrapped in try/catch — any thrown error is
converted to the not-found value `null` (here `none`). -/
def getPostBySlug (rootDir : Dir) (slug : String) : Option Post :=
  match getPostBySlugBody rootDir slug with
  | .ok post => some post
  | .error _ => none

/-- `filePath.replace(/\.md$/, "")`: strip a trailing `.md` suffix. -/
def stripMdSuffix (filePath : String) : String :=
  if strEndsWith filePath ".md" then
    String.mk (filePath.toList.take (filePath.toList.length - 3))
  else filePath

/-- `getPostMetadata`: derive the slug from the file name, read and parse the
file (no try/catch — read and parse errors propagate), inject the slug. -/
def getPostMetadata (rootDir : Dir) (filePath : String) : Except JsError PostMetadata :=
  match readFileSync rootDir filePath with
  | .error e => .error e
  | .ok contents =>
    match matter contents with
    | .error e => .error e
    | .ok (data, _) => .ok (setKey data "slug" (stripMdSuffix filePath))

/-- `.map(file => getPostMetadata(rootDir, file))` over throwing calls: the
first thrown error aborts the whole mapping. -/
def mapGetPostMetadata (rootDir : Dir) : List String → Except JsError (List PostMetadata)
  | [] => .ok []
  | f :: fs =>
    match getPostMetadata rootDir f with
    | .error e => .error e
    | .ok md =>
      match mapGetPostMetadata rootDir fs with
      | .error e => .error e
      | .ok mds => .ok (md :: mds)

/-- Stable insertion (descending by `sortKey`) used to model the JS stable
sort with comparator `(a, b) => key b - key a`. -/
def insertByDateDesc (x : PostMetadata) : List PostMetadata → List PostMetadata
  | [] => [x]
  | y :: ys => if sortKey y ≤ sortKey x then x :: y :: ys else y :: insertByDateDesc x ys

/-- Stable sort, descending by `sortKey`. -/
def sortByDateDesc : List PostMetadata → List PostMetadata
  | [] => []
  | x :: xs => insertByDateDesc x (sortByDateDesc xs)

/-- `getPosts`: list the directory, keep `.md` files, extract metadata for
each (no try/catch), sort newest-first, then apply the truthy `limit`. -/
def getPosts (rootDir : Dir) (limit : Option Nat) : Except JsError (List PostMetadata) :=
  match readdir rootDir with
  | .error e => .error e
  | .ok files =>
    match mapGetPostMetadata rootDir (files.filter (fun f => strEndsWith f ".md")) with
    | .error e => .error e
    | .ok posts =>
      match limit with
      | none => .ok (sortByDateDesc posts)
      | some n => if n ≠ 0 then .ok ((sortByDateDesc posts).take n) else .ok (sortByDateDesc posts)

/-- Substring occurrence on character lists (JS `String.prototype.includes`). -/
def containsSub (pat : List Char) : List Char → Bool
  | [] => pat.isEmpty
  | c :: cs => pat.isPrefixOf (c :: cs) || containsSub pat cs

/-- JS `s.includes(pat)`. -/
def strIncludes (s pat : String) : Bool := containsSub pat.toList s.toList

/-- JS `String.prototype.toLowerCase` (ASCII model). -/
def toLowerStr (s : String) : String := String.mk (s.toList.map Char.toLower)

/-- The search predicate of `PostsWithSearch`:
`post.title?.toLowerCase().includes(query.toLowerCase())` — optional
chaining makes a missing title short-circuit to a falsy result. -/
def titleMatches (query : String) (post : PostMetadata) : Bool :=
  match lookupKV "title" post with
  | none => false
  | some t => strIncludes (toLowerStr t) (toLowerStr query)

/-- The filtered list computed by `PostsWithSearch`. -/
def filtered (posts : List PostMetadata) (query : String) : List PostMetadata :=
  posts.filter (titleMatches query)

/-- Does the file begin with the recognised header-block start marker
(a first line equal to `---`)? -/
def startsWithMarker (contents : String) : Bool :=
  match linesOf contents with
  | [] => false
  | first :: _ => first == "---"

/-- A demonstration store with three well-formed posts, enumerated in the
order `a.md` (publishedAt 2025-01-01), `b.md` (publishedAt 2025-03-01),
`c.md` (no publishedAt). -/
def storeABC : Dir := .present [
  ("a.md", "---\npublishedAt: 2025-01-01\n---\nbody a"),
  ("b.md", "---\npublishedAt: 2025-03-01\n---\nbody b"),
  ("c.md", "---\ntitle: c post\n---\nbody c")]

/-- The catalog of `storeABC` in newest-first order. -/
def catalogABC : List PostMetadata := [
  [("publishedAt", "2025-03-01"), ("slug", "b")],
  [("publishedAt", "2025-01-01"), ("slug", "a")],
  [("title", "c post"), ("slug", "c")]]

/-- A store whose single `.md` file has a malformed header (a header line
without a colon). -/
def storeBad : Dir := .present [("bad.md", "---\nmalformed\n---\nbody")]

/-- A store whose single `.md` file has no header block at all. -/
def storePlain : Dir := .present [("plain.md", "just text\nmore text")]

/-! ## Helper lemmas -/

theorem lookupKV_append_right (k : String) (l₁ l₂ : List (String × String))
    (h : lookupKV k l₁ = none) : lookupKV k (l₁ ++ l₂) = lookupKV k l₂ := by
  induction l₁ with
  | nil => rfl
  | cons p rest ih =>
    obtain ⟨k₀, v₀⟩ := p
    rw [lookupKV] at h
    by_cases hk : k₀ = k
    · rw [if_pos hk] at h; exact absurd h (by simp)
    · rw [if_neg hk] at h
      rw [List.cons_append, lookupKV, if_neg hk]
      exact ih h

theorem lookupKV_map_overwrite (k v : String) (l : List (String × String))
    (h : (lookupKV k l).isSome) :
    lookupKV k (l.map (fun p => if p.1 = k then (k, v) else p)) = some v := by
  induction l with
  | nil => simp [lookupKV] at h
  | cons p rest ih =>
    obtain ⟨k₀, v₀⟩ := p
    by_cases hk : k₀ = k
    · subst hk
      simp only [List.map_cons, ite_true]
      rw [lookupKV, if_pos rfl]
    · rw [lookupKV, if_neg hk] at h
      simp only [List.map_cons, if_neg hk]
      rw [lookupKV, if_neg hk]
      exact ih h

theorem lookupKV_map_overwrite_ne (k v k' : String) (l : List (String × String))
    (h : k' ≠ k) :
    lookupKV k' (l.map (fun p => if p.1 = k then (k, v) else p)) = lookupKV k' l := by
  induction l with
  | nil => rfl
  | cons p rest ih =>
    obtain ⟨k₀, v₀⟩ := p
    simp only [List.map_cons]
    by_cases hk : k₀ = k
    · subst hk
      rw [if_pos rfl, lookupKV, lookupKV, if_neg (Ne.symm h), if_neg (Ne.symm h)]
      exact ih
    · rw [if_neg hk, lookupKV, lookupKV]
      by_cases hk' : k₀ = k'
      · rw [if_pos hk', if_pos hk']
      · rw [if_neg hk', if_neg hk']
        exact ih

theorem lookupKV_append_single_ne (k v k' : String) (l : List (String × String))
    (h : k' ≠ k) : lookupKV k' (l ++ [(k, v)]) = lookupKV k' l := by
  induction l with
  | nil =>
    simp [lookupKV, Ne.symm h]
  | cons p rest ih =>
    obtain ⟨k₀, v₀⟩ := p
    rw [List.cons_append, lookupKV, lookupKV]
    by_cases hk : k₀ = k'
    · rw [if_pos hk, if_pos hk]
    · rw [if_neg hk, if_neg hk]
      exact ih

theorem lookupKV_setKey_self (l : PostMetadata) (k v : String) :
    lookupKV k (setKey l k v) = some v := by
  rw [setKey]
  by_cases hs : (lookupKV k l).isSome
  · rw [if_pos hs]
    exact lookupKV_map_overwrite k v l hs
  · rw [if_neg hs]
    rw [lookupKV_append_right k l _ (Option.not_isSome_iff_eq_none.mp hs)]
    rw [lookupKV, if_pos rfl]

theorem lookupKV_setKey_ne (l : PostMetadata) (k v k' : String) (h : k' ≠ k) :
    lookupKV k' (setKey l k v) = lookupKV k' l := by
  rw [setKey]
  by_cases hs : (lookupKV k l).isSome
  · rw [if_pos hs]
    exact lookupKV_map_overwrite_ne k v k' l h
  · rw [if_neg hs]
    exact lookupKV_append_single_ne k v k' l h

theorem mem_insertByDateDesc {z x : PostMetadata} {l : List PostMetadata} :
    z ∈ insertByDateDesc x l ↔ z = x ∨ z ∈ l := by
  induction l with
  | nil => simp [insertByDateDesc]
  | cons y ys ih =>
    rw [insertByDateDesc]
    by_cases hk : sortKey y ≤ sortKey x
    · rw [if_pos hk]
      simp
    · rw [if_neg hk]
      simp only [List.mem_cons, ih]
      tauto

theorem mem_sortByDateDesc {z : PostMetadata} {l : List PostMetadata} :
    z ∈ sortByDateDesc l ↔ z ∈ l := by
  induction l with
  | nil => simp [sortByDateDesc]
  | cons x xs ih =>
    rw [sortByDateDesc, mem_insertByDateDesc, ih]
    simp

theorem sorted_insertByDateDesc (x : PostMetadata) (l : List PostMetadata)
    (h : l.Sorted (fun a b => sortKey b ≤ sortKey a)) :
    (insertByDateDesc x l).Sorted (fun a b => sortKey b ≤ sortKey a) := by
  induction l with
  | nil => simp [insertByDateDesc]
  | cons y ys ih =>
    rw [List.sorted_cons] at h
    obtain ⟨hy, hys⟩ := h
    by_cases hk : sortKey y ≤ sortKey x
    · rw [insertByDateDesc, if_pos hk]
      refine List.sorted_cons.mpr ⟨?_, List.sorted_cons.mpr ⟨hy, hys⟩⟩
      intro b hb
      rcases List.mem_cons.mp hb with rfl | hb
      · exact hk
      · exact le_trans (hy b hb) hk
    · rw [insertByDateDesc, if_neg hk]
      refine List.sorted_cons.mpr ⟨?_, ih hys⟩
      intro b hb
      rcases mem_insertByDateDesc.mp hb with rfl | hb
      · exact le_of_not_le hk
      · exact hy b hb

theorem sorted_sortByDateDesc (l : List PostMetadata) :
    (sortByDateDesc l).Sorted (fun a b => sortKey b ≤ sortKey a) := by
  induction l with
  | nil => simp [sortByDateDesc]
  | cons x xs ih => exact sorted_insertByDateDesc x (sortByDateDesc xs) ih

theorem mapGetPostMetadata_ok_mem (rootDir : Dir) (fs : List String)
    (mds : List PostMetadata) (h : mapGetPostMetadata rootDir fs = .ok mds) :
    ∀ md ∈ mds, ∃ f ∈ fs, getPostMetadata rootDir f = .ok md := by
  induction fs generalizing mds with
  | nil =>
    rw [mapGetPostMetadata] at h
    injection h with h'
    subst h'
    intro md hmd
    exact absurd hmd (by simp)
  | cons f fs' ih =>
    rw [mapGetPostMetadata] at h
    rcases hg : getPostMetadata rootDir f with e | md₀
    · rw [hg] at h; exact absurd h (by simp)
    · rw [hg] at h
      rcases hm : mapGetPostMetadata rootDir fs' with e | mds'
      · rw [hm] at h; exact absurd h (by simp)
      · rw [hm] at h
        injection h with h'
        subst h'
        intro md hmd
        rcases List.mem_cons.mp hmd with rfl | hmd'
        · exact ⟨f, List.mem_cons_self f fs', hg⟩
        · obtain ⟨f', hf', hg'⟩ := ih mds' hm md hmd'
          exact ⟨f', List.mem_cons_of_mem f hf', hg'⟩

theorem getPostMetadata_ok_slug (rootDir : Dir) (f : String) (md : PostMetadata)
    (h : getPostMetadata rootDir f = .ok md) :
    lookupKV "slug" md = some (stripMdSuffix f) := by
  rw [getPostMetadata] at h
  split at h
  · exact absurd h (by simp)
  · split at h
    · exact absurd h (by simp)
    · injection h with h'
      subst h'
      exact lookupKV_setKey_self _ "slug" (stripMdSuffix f)

theorem isPrefixOf_eq_true_iff (pat l : List Char) : pat.isPrefixOf l = true ↔ pat <+: l := by
  induction pat generalizing l with
  | nil => simp [List.isPrefixOf]
  | cons a as ih =>
    cases l with
    | nil => simp [List.isPrefixOf]
    | cons b bs =>
      rw [List.isPrefixOf, List.cons_prefix_cons]
      simp only [Bool.and_eq_true, beq_iff_eq]
      rw [ih bs]

theorem containsSub_iff (pat s : List Char) : containsSub pat s = true ↔ pat <:+: s := by
  induction s with
  | nil =>
    rw [containsSub, List.isEmpty_iff, List.infix_nil]
  | cons c cs ih =>
    rw [containsSub, List.infix_cons_iff, Bool.or_eq_true, ih,
      isPrefixOf_eq_true_iff]

theorem containsSub_nil_left (s : List Char) : containsSub [] s = true := by
  rw [containsSub_iff]
  exact List.nil_infix

theorem getPosts_ok_mem (rootDir : Dir) (limit : Option Nat) (l : List PostMetadata)
    (fileNames : List String) (hrd : readdir rootDir = .ok fileNames)
    (hok : getPosts rootDir limit = .ok l) :
    ∀ md ∈ l, ∃ f ∈ fileNames, strEndsWith f ".md" = true ∧
      getPostMetadata rootDir f = .ok md := by
  intro md hmd
  rw [getPosts] at hok
  split at hok
  next e heq1 => exact absurd hok (by simp)
  next fns heq1 =>
    split at hok
    next e heq2 => exact absurd hok (by simp)
    next posts heq2 =>
      rw [hrd] at heq1
      injection heq1 with heq1'
      subst heq1'
      have hmem : md ∈ sortByDateDesc posts := by
        rcases limit with _ | n
        · injection hok with hok'
          rw [hok']
          exact hmd
        · by_cases hn : n = 0
          · subst hn
            simp at hok
            rw [hok]
            exact hmd
          · simp [hn] at hok
            exact List.take_subset n _ (by rw [hok]; exact hmd)
      have hposts : md ∈ posts := mem_sortByDateDesc.mp hmem
      obtain ⟨f, hf, hgm⟩ := mapGetPostMetadata_ok_mem rootDir _ posts heq2 md hposts
      rw [List.mem_filter] at hf
      exact ⟨f, hf.1, hf.2, hgm⟩

/-! ## Claim theorems -/

/-- C1: whenever `getPosts` returns a list (every `.md` file parsed
successfully), that list is sorted non-increasing by the timestamp parsed
from `publishedAt`; an item whose parsed `publishedAt` is strictly greater
than another's precedes it; and a missing or unparseable `publishedAt`
yields sort key 0 (the oldest position). -/
theorem getPosts_sorted_desc (rootDir : Dir) (l : List PostMetadata)
    (h : getPosts rootDir none = .ok l) :
    l.Sorted (fun a b => sortKey b ≤ sortKey a) ∧
    (∀ i j : Fin l.length, sortKey (l.get j) < sortKey (l.get i) → (i : Nat) < (j : Nat)) ∧
    (∀ md : PostMetadata, lookupKV "publishedAt" md = none → sortKey md = 0) ∧
    (∀ md : PostMetadata, ∀ s, lookupKV "publishedAt" md = some s →
      dateTimestamp s = none → sortKey md = 0) := by
  have hsorted : l.Sorted (fun a b => sortKey b ≤ sortKey a) := by
    rw [getPosts] at h
    split at h
    next e heq1 => exact absurd h (by simp)
    next fns heq1 =>
      split at h
      next e heq2 => exact absurd h (by simp)
      next posts heq2 =>
        injection h with h'
        rw [← h']
        exact sorted_sortByDateDesc posts
  refine ⟨hsorted, ?_, ?_, ?_⟩
  · intro i j hij
    rcases Nat.lt_trichotomy (i : Nat) (j : Nat) with hlt | heq | hgt
    · exact hlt
    · have hij' : i = j := Fin.ext heq
      subst hij'
      exact absurd hij (lt_irrefl _)
    · have hle := hsorted.rel_get_of_lt (show j < i from hgt)
      exact absurd hij (not_lt.mpr hle)
  · intro md hmd
    rw [sortKey, hmd]
    rfl
  · intro md s hmd hts
    rw [sortKey, hmd, Option.getD_some, hts]
    rfl

/-- Witness for C1: the sortedness conclusion at the demonstration store. -/
theorem getPosts_sorted_desc_witness :
    catalogABC.Sorted (fun a b => sortKey b ≤ sortKey a) :=
  (getPosts_sorted_desc storeABC catalogABC rfl).1

/-- C2: `getPostBySlug` returns the not-found value (`none`) on a read
failure and on a parse failure alike, and it returns `none` exactly when its
body throws — both failures are collapsed into the single not-found
outcome, and no exception reaches the caller. -/
theorem getPostBySlug_not_found (rootDir : Dir) (slug : String) :
    (∀ e, readFileSync rootDir (slug ++ ".md") = .error e →
      getPostBySlug rootDir slug = none) ∧
    (∀ c e, readFileSync rootDir (slug ++ ".md") = .ok c → matter c = .error e →
      getPostBySlug rootDir slug = none) ∧
    (getPostBySlug rootDir slug = none ↔
      ∃ e, getPostBySlugBody rootDir slug = .error e) := by
  refine ⟨?_, ?_, ?_⟩
  · intro e he
    rw [getPostBySlug, getPostBySlugBody, he]
  · intro c e hc he
    rw [getPostBySlug, getPostBySlugBody]
    rw [hc]
    simp only [he]
  · constructor
    · intro hn
      rw [getPostBySlug] at hn
      rcases hb : getPostBySlugBody rootDir slug with e | p
      · exact ⟨e, rfl⟩
      · rw [hb] at hn
        exact absurd hn (by simp)
    · rintro ⟨e, hb⟩
      rw [getPostBySlug, hb]

/-- Witness for C2: a nonexistent slug and a malformed file both map to
`none`. -/
theorem getPostBySlug_not_found_witness :
    getPostBySlug storeABC "nope" = none ∧ getPostBySlug storeBad "bad" = none :=
  ⟨(getPostBySlug_not_found storeABC "nope").1 .enoent rfl,
   (getPostBySlug_not_found storeBad "bad").2.1 "---\nmalformed\n---\nbody"
     .parseError rfl rfl⟩

/-- C3 counterexample: exceptions do escape the data layer through
`getPosts` — a store with one malformed `.md` file makes `getPosts` throw a
parse error, and a nonexistent store root makes it throw ENOENT, instead of
producing a value-level not-found signal. -/
theorem getPosts_exception_escapes :
    getPosts storeBad none = .error .parseError ∧
    getPosts Dir.missing none = .error .enoent :=
  ⟨rfl, rfl⟩

/-- C3 amended: `getPostBySlug` converts every failure of its body (read or
parse) to the value-level not-found signal and never throws; `getPosts`,
however, is unguarded — a readdir failure (nonexistent store root) and a
read/parse failure during per-file metadata extraction propagate to the
caller as exceptions. -/
theorem data_layer_error_propagation (rootDir : Dir) (slug : String)
    (limit : Option Nat) :
    (∀ e, getPostBySlugBody rootDir slug = .error e →
      getPostBySlug rootDir slug = none) ∧
    getPosts Dir.missing limit = .error .enoent ∧
    (∀ fileNames e, readdir rootDir = .ok fileNames →
      mapGetPostMetadata rootDir (fileNames.filter (fun f => strEndsWith f ".md")) =
        .error e →
      getPosts rootDir limit = .error e) := by
  refine ⟨?_, rfl, ?_⟩
  · intro e he
    rw [getPostBySlug, he]
  · intro fileNames e h1 h2
    rw [getPosts]
    rw [h1]
    simp only [h2]

/-- Witness for C3's amended claim at concrete stores. -/
theorem data_layer_error_propagation_witness :
    getPostBySlug storeBad "bad" = none ∧
    getPosts Dir.missing none = .error .enoent ∧
    getPosts storeBad none = .error .parseError :=
  ⟨(data_layer_error_propagation storeBad "bad" none).1 .parseError rfl,
   (data_layer_error_propagation Dir.missing "x" none).2.1,
   (data_layer_error_propagation storeBad "x" none).2.2 ["bad.md"] .parseError rfl rfl⟩

/-- C4: a truthy limit truncates the sorted catalog to its first `n` items —
an order-stable prefix of the unlimited result of length at most `n` — and
limit `0` (like an absent limit) returns the full list unchanged. -/
theorem getPosts_limit_truncation (rootDir : Dir) (n : Nat) (l : List PostMetadata)
    (h : getPosts rootDir none = .ok l) :
    getPosts rootDir (some 0) = .ok l ∧
    (n ≠ 0 → getPosts rootDir (some n) = .ok (l.take n) ∧
      (l.take n).length ≤ n ∧ l.take n <+: l) := by
  rw [getPosts] at h
  split at h
  next e heq1 => exact absurd h (by simp)
  next fileNames heq1 =>
    split at h
    next e heq2 => exact absurd h (by simp)
    next posts heq2 =>
      injection h with h'
      constructor
      · rw [getPosts]
        simp only [heq1, heq2]
        rw [if_neg (by decide), h']
      · intro hn
        refine ⟨?_, ?_, ?_⟩
        · rw [getPosts]
          simp only [heq1, heq2]
          rw [if_pos hn, h']
        · rw [List.length_take]
          exact min_le_left n l.length
        · exact ⟨l.drop n, List.take_append_drop n l⟩

/-- Witness for C4 at the demonstration store with limit 2. -/
theorem getPosts_limit_truncation_witness :
    getPosts storeABC (some 0) = .ok catalogABC ∧
    getPosts storeABC (some 2) = .ok (catalogABC.take 2) ∧
    (catalogABC.take 2).length ≤ 2 ∧ catalogABC.take 2 <+: catalogABC :=
  ⟨(getPosts_limit_truncation storeABC 2 catalogABC rfl).1,
   (getPosts_limit_truncation storeABC 2 catalogABC rfl).2 (by decide)⟩

/-- C5: on a file that reads and parses successfully, `getPostBySlug`
returns exactly the parsed header mapping with the slug injected: the
`slug` key maps to the requested slug, every other key is passed through
unchanged, and the metadata's keys are exactly the header's keys plus
`slug` — no validation, no added or dropped keys. -/
theorem getPostBySlug_valid_header (rootDir : Dir)
    (slug fileContents content : String) (data : PostMetadata)
    (hr : readFileSync rootDir (slug ++ ".md") = .ok fileContents)
    (hp : matter fileContents = .ok (data, content)) :
    getPostBySlug rootDir slug = some ⟨setKey data "slug" slug, content⟩ ∧
    lookupKV "slug" (setKey data "slug" slug) = some slug ∧
    (∀ k, k ≠ "slug" → lookupKV k (setKey data "slug" slug) = lookupKV k data) ∧
    (∀ k, (lookupKV k (setKey data "slug" slug)).isSome ↔
      (lookupKV k data).isSome ∨ k = "slug") := by
  refine ⟨?_, lookupKV_setKey_self data "slug" slug, ?_, ?_⟩
  · rw [getPostBySlug, getPostBySlugBody]
    rw [hr]
    simp only [hp]
  · intro k hk
    exact lookupKV_setKey_ne data "slug" slug k hk
  · intro k
    by_cases hk : k = "slug"
    · subst hk
      simp [lookupKV_setKey_self]
    · rw [lookupKV_setKey_ne data "slug" slug k hk]
      simp [hk]

/-- Witness for C5 at `a.md` of the demonstration store. -/
theorem getPostBySlug_valid_header_witness :
    getPostBySlug storeABC "a" =
      some ⟨setKey [("publishedAt", "2025-01-01")] "slug" "a", "body a"⟩ ∧
    lookupKV "slug" (setKey [("publishedAt", "2025-01-01")] "slug" "a") = some "a" :=
  ⟨(getPostBySlug_valid_header storeABC "a" "---\npublishedAt: 2025-01-01\n---\nbody a"
      "body a" [("publishedAt", "2025-01-01")] rfl rfl).1,
   (getPostBySlug_valid_header storeABC "a" "---\npublishedAt: 2025-01-01\n---\nbody a"
      "body a" [("publishedAt", "2025-01-01")] rfl rfl).2.1⟩

/-- C6: a file whose contents do not begin with the header-block start
marker parses as empty metadata with the whole file as body, and
`getPostBySlug` returns a found result whose metadata is only the injected
slug and whose content is the entire file text. -/
theorem getPostBySlug_headerless (rootDir : Dir) (slug fileContents : String)
    (hr : readFileSync rootDir (slug ++ ".md") = .ok fileContents)
    (hm : startsWithMarker fileContents = false) :
    matter fileContents = .ok ([], fileContents) ∧
    getPostBySlug rootDir slug = some ⟨[("slug", slug)], fileContents⟩ := by
  have hmat : matter fileContents = .ok ([], fileContents) := by
    rw [matter]
    split
    · rfl
    · next first rest hl =>
      simp only [startsWithMarker, hl] at hm
      have hne : first ≠ "---" := by simpa using hm
      rw [if_neg hne]
  refine ⟨hmat, ?_⟩
  rw [getPostBySlug, getPostBySlugBody]
  rw [hr]
  simp only [hmat]
  rfl

/-- Witness for C6 at a marker-less file. -/
theorem getPostBySlug_headerless_witness :
    matter "just text\nmore text" = .ok ([], "just text\nmore text") ∧
    getPostBySlug storePlain "plain" =
      some ⟨[("slug", "plain")], "just text\nmore text"⟩ :=
  getPostBySlug_headerless storePlain "plain" "just text\nmore text" rfl rfl

/-- C7: on the store containing `a.md` (publishedAt 2025-01-01), `b.md`
(publishedAt 2025-03-01) and `c.md` (no publishedAt), `getPosts` returns the
metadata in order b, a, c, and with limit 2 it returns b, a. -/
theorem getPosts_scenario_order :
    getPosts storeABC none = .ok [
      [("publishedAt", "2025-03-01"), ("slug", "b")],
      [("publishedAt", "2025-01-01"), ("slug", "a")],
      [("title", "c post"), ("slug", "c")]] ∧
    getPosts storeABC (some 2) = .ok [
      [("publishedAt", "2025-03-01"), ("slug", "b")],
      [("publishedAt", "2025-01-01"), ("slug", "a")]] :=
  ⟨rfl, rfl⟩

/-- C8: the search filter keeps exactly the posts whose title contains the
query as a case-insensitive substring — a post is kept iff its `title` field
is present and contains the query after lowercasing, no other metadata field
influences the outcome, and the kept posts appear in their original relative
order (the output is a sublist of the input). -/
theorem filtered_keeps_exactly_title_matches (posts : List PostMetadata)
    (query : String) :
    (filtered posts query).Sublist posts ∧
    (∀ p, p ∈ filtered posts query ↔ p ∈ posts ∧ titleMatches query p = true) ∧
    (∀ p, titleMatches query p = true ↔
      ∃ t, lookupKV "title" p = some t ∧
        (toLowerStr query).toList <:+: (toLowerStr t).toList) ∧
    (∀ p₁ p₂, lookupKV "title" p₁ = lookupKV "title" p₂ →
      titleMatches query p₁ = titleMatches query p₂) := by
  refine ⟨List.filter_sublist posts, fun p => List.mem_filter, ?_, ?_⟩
  · intro p
    rw [titleMatches]
    split
    · next ht =>
      simp [ht]
    · next t ht =>
      rw [strIncludes, containsSub_iff]
      simp [ht]
  · intro p₁ p₂ h12
    rw [titleMatches, titleMatches, h12]

/-- Witness for C8: a concrete case-insensitive match. -/
theorem filtered_keeps_exactly_title_matches_witness :
    titleMatches "hell" [("title", "Hello")] = true :=
  ((filtered_keeps_exactly_title_matches [[("title", "Hello")]] "hell").2.2.1
    [("title", "Hello")]).mpr ⟨"Hello", rfl, by decide⟩

/-- C9: the injected slug wins — in every `getPostBySlug` result the
metadata's `slug` field equals the requested slug even when the header
itself defines a `slug` key, and in every `getPosts` result each item's
`slug` field equals its source file name with the `.md` suffix stripped. -/
theorem slug_field_injected (rootDir : Dir) (slug : String) (post : Post)
    (limit : Option Nat) (l : List PostMetadata) (fileNames : List String) :
    (∀ data v, lookupKV "slug" (setKey data "slug" v) = some v) ∧
    (getPostBySlug rootDir slug = some post →
      lookupKV "slug" post.metadata = some slug) ∧
    (readdir rootDir = .ok fileNames → getPosts rootDir limit = .ok l →
      ∀ md ∈ l, ∃ f ∈ fileNames, strEndsWith f ".md" = true ∧
        lookupKV "slug" md = some (stripMdSuffix f)) := by
  refine ⟨fun data v => lookupKV_setKey_self data "slug" v, ?_, ?_⟩
  · intro hp
    rw [getPostBySlug] at hp
    split at hp
    · next p hb =>
      injection hp with hp'
      subst hp'
      rw [getPostBySlugBody] at hb
      split at hb
      · exact absurd hb (by simp)
      · split at hb
        · exact absurd hb (by simp)
        · injection hb with hb'
          rw [← hb']
          exact lookupKV_setKey_self _ "slug" slug
    · next hb => exact absurd hp (by simp)
  · intro hrd hok md hmd
    obtain ⟨f, hf, hsuf, hgm⟩ := getPosts_ok_mem rootDir limit l fileNames hrd hok md hmd
    exact ⟨f, hf, hsuf, getPostMetadata_ok_slug rootDir f md hgm⟩

/-- Witness for C9: the spread overwrites a header-supplied slug, and a
concrete `getPostBySlug` result carries the requested slug. -/
theorem slug_field_injected_witness :
    lookupKV "slug" (setKey [("slug", "headerSlug")] "slug" "a") = some "a" ∧
    lookupKV "slug"
      (Post.metadata ⟨[("publishedAt", "2025-01-01"), ("slug", "a")], "body a"⟩) =
      some "a" :=
  ⟨(slug_field_injected storeABC "a"
      ⟨[("publishedAt", "2025-01-01"), ("slug", "a")], "body a"⟩ none [] []).1
      [("slug", "headerSlug")] "a",
   (slug_field_injected storeABC "a"
      ⟨[("publishedAt", "2025-01-01"), ("slug", "a")], "body a"⟩ none [] []).2.1 rfl⟩

/-- C10: a post without a `title` field is excluded from the filtered output
for every query — the optional chaining short-circuits to exclusion rather
than treating the missing title as an empty string — while for the empty
query every titled post is kept. -/
theorem untitled_post_excluded (posts : List PostMetadata) (query : String)
    (p : PostMetadata) :
    (lookupKV "title" p = none → p ∉ filtered posts query) ∧
    (∀ t, p ∈ posts → lookupKV "title" p = some t → p ∈ filtered posts "") := by
  constructor
  · intro ht hmem
    rw [filtered] at hmem
    have hmatch := (List.mem_filter.mp hmem).2
    simp [titleMatches, ht] at hmatch
  · intro t hp ht
    rw [filtered]
    refine List.mem_filter.mpr ⟨hp, ?_⟩
    simp only [titleMatches, ht]
    rw [strIncludes]
    exact containsSub_nil_left _

/-- Witness for C10: an untitled post is dropped; a titled post survives the
empty query. -/
theorem untitled_post_excluded_witness :
    [("slug", "x")] ∉ filtered [[("slug", "x")], [("title", "T post")]] "q" ∧
    [("title", "T post")] ∈ filtered [[("slug", "x")], [("title", "T post")]] "" :=
  ⟨(untitled_post_excluded [[("slug", "x")], [("title", "T post")]] "q"
      [("slug", "x")]).1 rfl,
   (untitled_post_excluded [[("slug", "x")], [("title", "T post")]] ""
      [("title", "T post")]).2 "T post" (by simp) rfl⟩
